import Mathlib

/-
Verification of the typespecs package (astropenguin/typespecs): a shallow
embedding of its annotation-tree flattening algorithm.

The embedding models the Python runtime values that the package manipulates
as one inductive type `Val`: type expressions (bare types, generic aliases,
Literal types, Annotated aliases), Spec metadata dictionaries, and the plain
values stored inside them.  Python equality (==) is modelled by the Boolean
function `Val.beq` (decidable structural equality), and the pandas missing
value pd.NA by the dedicated constructor `Val.na`.  DataFrames are modelled
as a list of labelled rows over a list of column labels.
-/

namespace Typespecs

/-- Model of the Python objects handled by typespecs: type expressions,
Spec metadata and primitive values.  `itself` models the ITSELF sentinel
(absent from the shipped spec.py; modelled from the test suite, which
requires a value equal to every ItselfType instance), `na` models pd.NA,
`base` a bare type such as int, `generic` a parameterized alias such as
list[int] (origin name and arguments), `literal` a Literal[...] form,
`annotated` an Annotated[t, m1, ...] form (argument plus metadata), `spec` a
Spec dictionary (ordered string keys), and `other` any other opaque
metadata object. -/
inductive Val where
  | itself : Val
  | na : Val
  | vint : Int → Val
  | vstr : String → Val
  | vbool : Bool → Val
  | base : String → Val
  | generic : String → List Val → Val
  | literal : List Val → Val
  | annotated : Val → List Val → Val
  | spec : List (String × Val) → Val
  | other : Nat → Val
  deriving Repr

/-- A Spec is essentially a dictionary from string keys to values
(src/typespecs/spec.py, class Spec). -/
abbrev Spec := List (String × Val)

mutual

/-- Model of Python equality (==) on embedded values: structural equality.
Two ItselfType instances compare equal (tests/test_spec.py), and values of
distinct kinds compare unequal. -/
def Val.beq : Val → Val → Bool
  | .itself, .itself => true
  | .na, .na => true
  | .vint i, .vint j => i == j
  | .vstr s, .vstr t => s == t
  | .vbool x, .vbool y => x == y
  | .base s, .base t => s == t
  | .generic n xs, .generic m ys => n == m && Val.beqList xs ys
  | .literal xs, .literal ys => Val.beqList xs ys
  | .annotated t ms, .annotated u ns => Val.beq t u && Val.beqList ms ns
  | .spec ps, .spec qs => Val.beqPairs ps qs
  | .other i, .other j => i == j
  | _, _ => false

/-- Pointwise Python equality of two value lists. -/
def Val.beqList : List Val → List Val → Bool
  | [], [] => true
  | x :: xs, y :: ys => Val.beq x y && Val.beqList xs ys
  | _, _ => false

/-- Pointwise Python equality of two key-value pair lists. -/
def Val.beqPairs : List (String × Val) → List (String × Val) → Bool
  | [], [] => true
  | (k, v) :: ps, (l, w) :: qs => k == l && Val.beq v w && Val.beqPairs ps qs
  | _, _ => false

end

/-! Operations of src/typespecs/typing.py. -/

/-- Check if given object has metadata (src/typespecs/typing.py,
has_metadata): true when the origin of the object is Annotated. -/
def has_metadata : Val → Bool
  | .annotated _ _ => true
  | _ => false

/-- Model of typing_extensions.get_args: for Annotated[t, m...] the tuple
(t, m...), for a parameterized alias its arguments, for Literal[...] its
values, and the empty tuple for any other object. -/
def get_args : Val → List Val
  | .generic _ args => args
  | .literal vs => vs
  | .annotated t ms => t :: ms
  | _ => []

mutual

/-- Model of typing private helper used by get_annotation with
recursive=True (CPython typing, strip all Annotated layers, rebuilding
parameterized aliases from stripped arguments). -/
def strip_annotations : Val → Val
  | .annotated t _ => strip_annotations t
  | .generic n args => .generic n (stripList args)
  | .literal vs => .literal (stripList vs)
  | v => v

/-- Strip annotations from every element of an argument list. -/
def stripList : List Val → List Val
  | [] => []
  | v :: vs => strip_annotations v :: stripList vs

end

/-- Return metadata-stripped annotation of given object
(src/typespecs/typing.py, get_annotation): with recursive=True all
metadata are stripped recursively; otherwise only a top Annotated layer. -/
def get_annotation (obj : Val) (recursive : Bool) : Val :=
  if recursive then strip_annotations obj
  else if has_metadata obj then (get_args obj).getD 0 Val.na else obj

/-- Return all metadata of given object (src/typespecs/typing.py,
get_metadata): the arguments after the first when the object is Annotated,
and the empty list otherwise. -/
def get_metadata (obj : Val) : List Val :=
  if has_metadata obj then (get_args obj).drop 1 else []

/-- Check if given object is a literal type (src/typespecs/typing.py,
is_literal): true when the origin of the object is Literal. -/
def is_literal : Val → Bool
  | .literal _ => true
  | _ => false

/-- Return all subtypes of given object (src/typespecs/typing.py,
get_subtypes): the empty list when the metadata-stripped annotation is a
Literal type, and the arguments of the metadata-stripped annotation
otherwise.  The revision of api.py in src calls this function under the
name get_subannotations, which is absent from the shipped typing.py; the
claims identify it with get_subtypes. -/
def get_subtypes (obj : Val) : List Val :=
  if is_literal ( get_annotation obj false) then []
  else get_args ( get_annotation obj false)

/-! Operations of src/typespecs/spec.py. -/

/-- Check if given object is a type specification (src/typespecs/spec.py,
is_spec): true exactly for Spec instances. -/
def is_spec : Val → Bool
  | .spec _ => true
  | _ => false

/-- The key-value pairs of a Spec object (the dictionary content of a
Spec instance; empty for any non-Spec value). -/
def specEntries : Val → Spec
  | .spec kvs => kvs
  | _ => []

/-- Replace occurrences of old value with new value
(src/typespecs/spec.py, Spec.replace): a new Spec with the same keys in
the same order, in which every value equal (by Python ==) to the old value
is replaced by the new value. -/
def Spec.replace (s : Spec) (old_value new_value : Val) : Spec :=
  s.map (fun kv => (kv.1, if Val.beq kv.2 old_value then new_value else kv.2))

/-! Model of the host language Annotated constructor and of Python
dictionaries with insertion order. -/

/-- Model of Annotated[t, m1, ..., mk]: CPython flattens a nested
Annotated, appending the new metadata after the existing metadata. -/
def mkAnnotated (t : Val) (ms : List Val) : Val :=
  match t with
  | .annotated core ms0 => .annotated core (ms0 ++ ms)
  | core => .annotated core ms

/-- Set one key of an insertion-ordered dictionary (Python dict
semantics): an existing key keeps its position and gets the new value, a
new key is appended at the end. -/
def dictSet (d : Spec) (k : String) (v : Val) : Spec :=
  if d.any (fun kv => kv.1 == k) then
    d.map (fun kv => if kv.1 == k then (k, v) else kv)
  else d ++ [(k, v)]

/-- Model of Python dict.update: fold the entries of the second
dictionary into the first, in order. -/
def dictUpdate (d e : Spec) : Spec :=
  e.foldl (fun acc kv => dictSet acc kv.1 kv.2) d

/-- Model of dictionary access: the value of the first entry carrying the
key, when present. -/
def dictLookup (s : Spec) (k : String) : Option Val :=
  (s.find? (fun kv => kv.1 == k)).map Prod.snd

/-! Model of a pandas DataFrame with object dtype: a list of column
labels together with a list of rows, each row being its index label paired
with its cell values in column order.  A missing cell holds `Val.na`. -/

/-- A DataFrame: column labels plus labelled rows. -/
structure DataFrame where
  columns : List String
  rows : List (String × List Val)
  deriving Repr

/-- The index of a DataFrame: the list of its row labels, in order. -/
def DataFrame.index (df : DataFrame) : List String := df.rows.map Prod.fst

/-- Check if given object is identical to <NA> (src/typespecs/api.py,
_isna). -/
def _isna : Val → Bool
  | .na => true
  | _ => false

/-- The first value of a list that is not <NA>, or <NA> when every value
is missing (the value a backward fill puts at the top of a column). -/
def firstNonNA (l : List Val) : Val :=
  match l.find? (fun v => ! _isna v) with
  | some v => v
  | none => Val.na

/-- The values of column position j, top to bottom (missing positions read
as <NA>). -/
def colVals (df : DataFrame) (j : Nat) : List Val :=
  df.rows.map (fun row => row.2.getD j Val.na)

/-- The cell at row position i and column position j (out-of-range
positions read as <NA>). -/
def DataFrame.cellAt (df : DataFrame) (i j : Nat) : Val :=
  ((df.rows.getD i (("", []))).2).getD j Val.na

/-- The position of a column label in a column list: the position of its
first occurrence, or the length of the list when absent. -/
def colIdx : List String → String → Nat
  | [], _ => 0
  | c0 :: rest, c => if c0 = c then 0 else colIdx rest c + 1

/-- Label-based cell access, as pandas .loc with a row label and a column
label: the cell of the first row carrying the row label, at the position
of the column label; <NA> when the row or the column label is absent. -/
def DataFrame.atLabel (df : DataFrame) (r c : String) : Val :=
  match df.rows.find? (fun row => row.1 == r) with
  | some row => if c ∈ df.columns then row.2.getD (colIdx df.columns c) Val.na else Val.na
  | none => Val.na

/-! Operations of src/typespecs/api.py. -/

/-- The single-row DataFrame built at each node (src/typespecs/api.py,
lines 94-100): pd.DataFrame filled from the specs dictionary, one column
per key in insertion order, indexed by the node index. -/
def specFrame (index : String) (specs : Spec) : DataFrame :=
  ⟨specs.map Prod.fst, [(index, specs.map Prod.snd)]⟩

/-- Concatenate DataFrames with missing values filled with <NA>
(src/typespecs/api.py, _concat): the result index is the concatenation of
the indexes, the result columns are the sorted distinct union of the
columns, and every cell is written by label-aligned assignment from each
input frame in order, so the last input frame containing a row label and a
column label wins; cells covered by no input frame stay <NA>. -/
def _concat (objs : List DataFrame) : DataFrame :=
  ⟨List.insertionSort (· ≤ ·) ((objs.flatMap (fun obj => obj.columns)).dedup),
   (objs.flatMap (fun obj => obj.rows)).map (fun row =>
     (row.1,
      (List.insertionSort (· ≤ ·) ((objs.flatMap (fun obj => obj.columns)).dedup)).map
        (fun c =>
          objs.foldl
            (fun v f => if row.1 ∈ f.index ∧ c ∈ f.columns then f.atLabel row.1 c else v)
            Val.na)))⟩

/-- Backward fill (pandas bfill): each cell becomes the first non-<NA>
value at or below it in its column. -/
def DataFrame.bfill (df : DataFrame) : DataFrame :=
  ⟨df.columns,
   (List.range df.rows.length).map (fun i =>
     ((df.rows.getD i (("", []))).1,
      (List.range df.columns.length).map (fun j =>
        firstNonNA ((df.rows.drop i).map (fun row => row.2.getD j Val.na)))))⟩

/-- Mask by missingness (pandas obj.mask(obj.map(_isna), other)): each
cell that is <NA> in the frame is replaced by the corresponding cell of
the other frame. -/
def DataFrame.maskNA (df other : DataFrame) : DataFrame :=
  ⟨df.columns,
   (List.range df.rows.length).map (fun i =>
     ((df.rows.getD i (("", []))).1,
      (List.range df.columns.length).map (fun j =>
        if _isna (df.cellAt i j) then other.cellAt i j else df.cellAt i j)))⟩

/-- Merge multiple rows of a DataFrame into a single row
(src/typespecs/api.py, _merge): obj.mask(obj.map(_isna), obj.bfill())
followed by head(1). -/
def _merge (df : DataFrame) : DataFrame :=
  ⟨(df.maskNA df.bfill).columns, (df.maskNA df.bfill).rows.take 1⟩

/-- The Annotated[obj, Spec({type: ITSELF})] wrapping applied by
from_annotation when the type argument is not None
(src/typespecs/api.py, lines 85-86). -/
def wrapType : Option String → Val → Val
  | some t, obj => mkAnnotated obj [Val.spec [(t, Val.itself)]]
  | none, obj => obj

/-- The specs dictionary collected at a node (src/typespecs/api.py, lines
88-92): every Spec in the metadata of the (already wrapped) object, with
ITSELF replaced by the recursively metadata-stripped annotation, folded
into one dictionary by dict.update in order. -/
def specsOf (obj : Val) : Spec :=
  ((get_metadata obj).filter is_spec).foldl
    (fun acc m => dictUpdate acc (Spec.replace (specEntries m) Val.itself ( get_annotation obj true))) []

mutual

/-- Create a specification DataFrame from given annotation
(src/typespecs/api.py, from_annotation): wrap the object with the type
column Spec, build the single-row frame of the specs collected at the
node, recurse into every subannotation with merge=False and the
separator-extended index, concatenate, and merge into one row when merge
is set. -/
def from_annotation (obj : Val) (index : String) (merge : Bool) (sep : String)
    (type : Option String) : DataFrame :=
  if merge then
    _merge (_concat (specFrame index (specsOf (wrapType type obj)) ::
      faSubs (get_subtypes (wrapType type obj)) 0 index sep type))
  else
    _concat (specFrame index (specsOf (wrapType type obj)) ::
      faSubs (get_subtypes (wrapType type obj)) 0 index sep type)
termination_by 2 * sizeOf obj + 1
decreasing_by
  all_goals
    have hw : get_subtypes (wrapType type obj) = get_subtypes obj := by
      unfold get_subtypes
      have ha : get_annotation (wrapType type obj) false = get_annotation obj false := by
        cases type with
        | none => rfl
        | some c =>
            cases obj <;>
              simp [wrapType, mkAnnotated, get_annotation, has_metadata, get_args]
      rw [ha]
    have h1 : sizeOf (get_subtypes obj) ≤ sizeOf obj := by
      unfold get_subtypes
      by_cases h : is_literal ( get_annotation obj false) = true
      · simp only [h, if_true]
        cases obj <;> simp
        all_goals omega
      · simp only [h, if_false, Bool.false_eq_true]
        have harg : sizeOf (get_args ( get_annotation obj false)) ≤
            sizeOf ( get_annotation obj false) := by
          cases get_annotation obj false <;> simp [get_args]
        have hann : sizeOf ( get_annotation obj false) ≤ sizeOf obj := by
          cases obj <;> simp [ get_annotation, has_metadata, get_args]
          omega
        omega
    rw [hw]
    omega

/-- The loop over enumerate(get_subannotations(obj)) in from_annotation
(src/typespecs/api.py, lines 102-111): one recursive frame per
subannotation, with the subindex appended to the index after the
separator. -/
def faSubs : List Val → Nat → String → String → Option String → List DataFrame
  | [], _, _, _, _ => []
  | sub :: rest, k, index, sep, type =>
      from_annotation sub (index ++ sep ++ toString k) false sep type ::
        faSubs rest (k + 1) index sep type
termination_by ss _ _ _ _ => 2 * sizeOf ss
decreasing_by
  all_goals simp_wf
  all_goals omega

end

/-- Modelled from the spec: an object with annotations (the HasAnnotations
protocol is absent from the shipped typing.py).  It carries its annotated
attribute declarations, in declaration order, and the attribute values it
actually holds. -/
structure PyObj where
  annotations : List (String × Val)
  attrs : List (String × Val)

/-- Modelled from the spec: get_annotations (absent from the shipped
typing.py) returns the (attribute name, annotation) pairs of the object in
declaration order, as the annotations dictionary of the host language. -/
def get_annotations (o : PyObj) : List (String × Val) := o.annotations

/-- Model of getattr(obj, name, default): the value of the named
attribute, or the default when the attribute is absent. -/
def getattr (o : PyObj) (name : String) (default : Val) : Val :=
  match o.attrs.find? (fun kv => kv.1 == name) with
  | some kv => kv.2
  | none => default

/-- Create a specification DataFrame from given object with annotations
(src/typespecs/api.py, from_annotated): one frame per annotated attribute
in declaration order, each built by from_annotation with the attribute
name as root index, the annotation wrapped (when data is not None) with a
Spec carrying the attribute value (or <NA> when absent) under the data
column; the frames are concatenated by _concat. -/
def from_annotated (o : PyObj) (data : Option String) (merge : Bool)
    (sep : String) (type : Option String) : DataFrame :=
  _concat ((get_annotations o).map (fun p =>
    from_annotation
      (match data with
       | some d => mkAnnotated p.2 [Val.spec [(d, getattr o p.1 Val.na)]]
       | none => p.2)
      p.1 merge sep type))

/-- A concrete object with one annotated attribute that is present: used
to witness the from_annotated claim. -/
def c6obj : PyObj :=
  ⟨[(("a"), Val.base ("int"))], [(("a"), Val.vint 7)]⟩

/-- A concrete object with one annotated attribute that is absent, whose
annotation carries a nested Spec with a "data" key: used to refute the
claim that the data column holds NA when the attribute is absent. -/
def c6cex : PyObj :=
  ⟨[(("a"), Val.generic ("list")
      [Val.annotated (Val.base ("int")) [Val.spec [(("data"), Val.vint 99)]]])],
   []⟩

/-! Model of the import structure of the package, for the import-safety
claim: each module of src/typespecs with the names it defines at top level
and the intra-package names it imports at load time. -/

/-- A Python module: its dotted name, the top-level names it defines, and
its intra-package (module, name) imports. -/
structure PyModule where
  name : String
  defines : List String
  imports : List (String × String)

/-- src/typespecs/spec.py: defines only Spec and is_spec (no ITSELF, no
SpecFrame, no ItselfType, no is_specframe). -/
def specModule : PyModule :=
  ⟨("typespecs.spec"), [("Spec"), ("is_spec")], []⟩

/-- src/typespecs/typing.py: defines the listed helpers (no
HasAnnotations, no get_annotations, no get_subannotations). -/
def typingModule : PyModule :=
  ⟨("typespecs.typing"),
   [("DataClassInstance"), ("DataClass"), ("get_annotation"), ("get_metadata"),
    ("get_subtypes"), ("has_metadata"), ("is_literal")],
   []⟩

/-- src/typespecs/api.py, lines 11-18: its intra-package imports. -/
def apiModule : PyModule :=
  ⟨("typespecs.api"),
   [("from_annotated"), ("from_annotation"), ("_concat"), ("_isna"), ("_merge")],
   [(("typespecs.spec"), ("ITSELF")), (("typespecs.spec"), ("Spec")),
    (("typespecs.spec"), ("is_spec")),
    (("typespecs.typing"), ("HasAnnotations")),
    (("typespecs.typing"), ("get_annotation")),
    (("typespecs.typing"), ("get_annotations")),
    (("typespecs.typing"), ("get_metadata")),
    (("typespecs.typing"), ("get_subannotations"))]⟩

/-- src/typespecs/__init__.py, lines 18-20: its intra-package imports. -/
def initModule : PyModule :=
  ⟨("typespecs"),
   [("__version__")],
   [(("typespecs.api"), ("from_annotated")), (("typespecs.api"), ("from_annotation")),
    (("typespecs.api"), ("from_annotations")),
    (("typespecs.spec"), ("ITSELF")), (("typespecs.spec"), ("Spec")),
    (("typespecs.spec"), ("SpecFrame"))]⟩

/-- The modules of the package. -/
def typespecsModules : List PyModule :=
  [specModule, typingModule, apiModule, initModule]

/-- An import resolves when the named module defines the named value. -/
def resolves (ms : List PyModule) (imp : String × String) : Bool :=
  ms.any (fun m => m.name == imp.1 && m.defines.contains imp.2)

/-- Every import of every module of the package resolves. -/
def importsResolved (ms : List PyModule) : Bool :=
  ms.all (fun m => m.imports.all (resolves ms))

/-! Specification-side definitions: the node structure of an annotation
tree, stated independently of the DataFrame construction, to compare the
output of from_annotation against. -/

/-- The row label of the node reached from the root by the given child
positions: the root index followed by each position, each prefixed by the
separator. -/
def pathLabel (index sep : String) (p : List Nat) : String :=
  p.foldl (fun acc k => acc ++ sep ++ toString k) index

mutual

/-- The child-position paths of the nodes of an annotation tree, in
depth-first pre-order; the root is the empty path. -/
def nodePaths (obj : Val) : List (List Nat) :=
  [] :: nodePathsFrom (get_subtypes obj) 0
termination_by 2 * sizeOf obj + 1
decreasing_by
  have h1 : sizeOf (get_subtypes obj) ≤ sizeOf obj := by
    unfold get_subtypes
    by_cases h : is_literal ( get_annotation obj false) = true
    · simp only [h, if_true]
      cases obj <;> simp
      all_goals omega
    · simp only [h, if_false, Bool.false_eq_true]
      have harg : sizeOf (get_args ( get_annotation obj false)) ≤
          sizeOf ( get_annotation obj false) := by
        cases get_annotation obj false <;> simp [get_args]
      have hann : sizeOf ( get_annotation obj false) ≤ sizeOf obj := by
        cases obj <;> simp [ get_annotation, has_metadata, get_args]
        omega
      omega
  omega

/-- The paths through the children listed, numbered from position k. -/
def nodePathsFrom : List Val → Nat → List (List Nat)
  | [], _ => []
  | s :: ss, k => (nodePaths s).map (fun q => k :: q) ++ nodePathsFrom ss (k + 1)
termination_by ss _ => 2 * sizeOf ss
decreasing_by
  all_goals simp_wf
  all_goals omega

end

/-- The keys of the Spec metadata attached directly at a node. -/
def nodeKeys (obj : Val) : List String :=
  ((get_metadata obj).filter is_spec).flatMap (fun m => (specEntries m).map Prod.fst)

mutual

/-- The union, as a concatenation over all nodes of the annotation tree in
depth-first pre-order, of the keys of the Spec metadata attached at each
node. -/
def allKeys (obj : Val) : List String :=
  nodeKeys obj ++ allKeysFrom (get_subtypes obj)
termination_by 2 * sizeOf obj + 1
decreasing_by
  have h1 : sizeOf (get_subtypes obj) ≤ sizeOf obj := by
    unfold get_subtypes
    by_cases h : is_literal ( get_annotation obj false) = true
    · simp only [h, if_true]
      cases obj <;> simp
      all_goals omega
    · simp only [h, if_false, Bool.false_eq_true]
      have harg : sizeOf (get_args ( get_annotation obj false)) ≤
          sizeOf ( get_annotation obj false) := by
        cases get_annotation obj false <;> simp [get_args]
      have hann : sizeOf ( get_annotation obj false) ≤ sizeOf obj := by
        cases obj <;> simp [ get_annotation, has_metadata, get_args]
        omega
      omega
  omega

/-- The key union over a list of subtrees. -/
def allKeysFrom : List Val → List String
  | [] => []
  | s :: ss => allKeys s ++ allKeysFrom ss
termination_by ss => 2 * sizeOf ss
decreasing_by
  all_goals simp_wf
  all_goals omega

end

/-! Theorems.  First, size bounds for the subtype descent. -/

/-- Size of the argument list never exceeds the size of the object. -/
theorem get_args_sizeOf_le (v : Val) : sizeOf (get_args v) ≤ sizeOf v := by
  cases v <;> simp [get_args]

/-- Size of the one-level metadata-stripped annotation never exceeds the
size of the object. -/
theorem get_annotation_sizeOf_le (v : Val) :
    sizeOf ( get_annotation v false) ≤ sizeOf v := by
  cases v <;> simp [ get_annotation, has_metadata, get_args]
  omega

/-- Size of the subtype list never exceeds the size of the object. -/
theorem get_subtypes_sizeOf_le (v : Val) : sizeOf (get_subtypes v) ≤ sizeOf v := by
  unfold get_subtypes
  by_cases h : is_literal ( get_annotation v false) = true
  · simp only [h, if_true]
    cases v <;> simp
    all_goals omega
  · simp only [h, if_false, Bool.false_eq_true]
    exact le_trans (get_args_sizeOf_le _) (get_annotation_sizeOf_le v)

/-- Every subtype of an object is strictly smaller than the object. -/
theorem get_subtypes_mem_sizeOf {s v : Val} (h : s ∈ get_subtypes v) :
    sizeOf s < sizeOf v :=
  lt_of_lt_of_le (List.sizeOf_lt_of_mem h) (get_subtypes_sizeOf_le v)

/-- The one-level metadata-stripped annotation is unchanged by wrapping
new metadata around the object. -/
theorem get_annotation_mkAnnotated (t : Val) (ms : List Val) :
    get_annotation (mkAnnotated t ms) false = get_annotation t false := by
  cases t <;> simp [mkAnnotated, get_annotation, has_metadata, get_args]

/-- The subtypes of an object are unchanged by the type-column wrapping. -/
theorem get_subtypes_wrapType (t : Option String) (obj : Val) :
    get_subtypes (wrapType t obj) = get_subtypes obj := by
  cases t with
  | none => rfl
  | some c => unfold get_subtypes; rw [wrapType, get_annotation_mkAnnotated]

/-! Unfolding lemmas for the recursive definitions. -/

/-- Unfolding of from_annotation with merge=False. -/
theorem fa_false_eq (obj : Val) (i sep : String) (t : Option String) :
    from_annotation obj i false sep t =
      _concat (specFrame i (specsOf (wrapType t obj)) ::
        faSubs (get_subtypes (wrapType t obj)) 0 i sep t) := by
  rw [ from_annotation.eq_def]
  simp

/-- With merge=True, from_annotation returns exactly the _merge of its
merge=False result: both build the same list of frames, because every
recursive call is made with merge=False. -/
theorem fa_true_eq (obj : Val) (i sep : String) (t : Option String) :
    from_annotation obj i true sep t =
      _merge ( from_annotation obj i false sep t) := by
  rw [ from_annotation.eq_def, fa_false_eq]
  simp

/-- Unfolding of the subannotation loop: empty list. -/
theorem faSubs_nil (k : Nat) (i sep : String) (t : Option String) :
    faSubs [] k i sep t = [] := by
  simp [faSubs]

/-- Unfolding of the subannotation loop: one more subannotation. -/
theorem faSubs_cons (s : Val) (ss : List Val) (k : Nat) (i sep : String)
    (t : Option String) :
    faSubs (s :: ss) k i sep t =
      from_annotation s (i ++ sep ++ toString k) false sep t ::
        faSubs ss (k + 1) i sep t := by
  simp [faSubs]

/-- Unfolding of nodePaths. -/
theorem nodePaths_eq (obj : Val) :
    nodePaths obj = [] :: nodePathsFrom (get_subtypes obj) 0 := by
  simp [nodePaths]

/-- Unfolding of allKeys. -/
theorem allKeys_eq (obj : Val) :
    allKeys obj = nodeKeys obj ++ allKeysFrom (get_subtypes obj) := by
  simp [allKeys]

/-- Strong induction over the subtype relation of annotation trees. -/
theorem val_subtree_ind (P : Val → Prop)
    (step : ∀ obj, (∀ s ∈ get_subtypes obj, P s) → P obj) : ∀ obj, P obj := by
  have key : ∀ n obj, sizeOf obj < n → P obj := by
    intro n
    induction n with
    | zero => intro o h; omega
    | succ n ih =>
        intro o h
        exact step o (fun s hs =>
          ih s (by have := get_subtypes_mem_sizeOf hs; omega))
  intro obj
  exact key (sizeOf obj + 1) obj (Nat.lt_succ_self _)

/-! Basic lemmas about _concat and _merge. -/

/-- The index of a concatenation is the concatenation of the indexes. -/
theorem _concat_index (objs : List DataFrame) :
    (_concat objs).index = objs.flatMap (fun obj => obj.index) := by
  unfold _concat DataFrame.index
  simp [List.map_map, Function.comp_def, List.map_flatMap]

/-- The columns of a concatenation, definitionally. -/
theorem _concat_columns (objs : List DataFrame) :
    (_concat objs).columns =
      List.insertionSort (· ≤ ·) ((objs.flatMap (fun obj => obj.columns)).dedup) := rfl

/-- A label is a column of a concatenation exactly when it is a column of
one of the inputs. -/
theorem mem_concat_columns {c : String} (objs : List DataFrame) :
    c ∈ (_concat objs).columns ↔ ∃ f ∈ objs, c ∈ f.columns := by
  rw [_concat_columns, (List.perm_insertionSort _ _).mem_iff, List.mem_dedup,
    List.mem_flatMap]

/-- The columns of a concatenation are strictly sorted (sorted in
ascending order without duplicates). -/
theorem concat_columns_sorted (objs : List DataFrame) :
    ((_concat objs).columns).Sorted (· < ·) := by
  rw [_concat_columns]
  exact List.Sorted.lt_of_le (List.sorted_insertionSort _ _)
    (((List.perm_insertionSort _ _).nodup_iff).mpr (List.nodup_dedup _))

/-- The rows of a concatenation, definitionally: one row per input row in
order, relabelled over the result columns by last-wins label lookup. -/
theorem _concat_rows (objs : List DataFrame) :
    (_concat objs).rows = (objs.flatMap (fun obj => obj.rows)).map (fun row =>
      (row.1, (_concat objs).columns.map (fun c =>
        objs.foldl
          (fun v f => if row.1 ∈ f.index ∧ c ∈ f.columns then f.atLabel row.1 c else v)
          Val.na))) := rfl

/-- Every row of a concatenation has one cell per result column. -/
theorem concat_row_length {objs : List DataFrame} {row : String × List Val}
    (h : row ∈ (_concat objs).rows) :
    row.2.length = (_concat objs).columns.length := by
  rw [_concat_rows] at h
  obtain ⟨r, _, rfl⟩ := List.mem_map.mp h
  simp

/-- Merging keeps the columns. -/
theorem _merge_columns (df : DataFrame) : (_merge df).columns = df.columns := rfl

/-- Reading a position of a mapped range list. -/
theorem getD_map_range {α : Type} (f : Nat → α) (n j : Nat) (d : α) (h : j < n) :
    ((List.range n).map f).getD j d = f j := by
  have hlen : j < ((List.range n).map f).length := by simp [h]
  rw [List.getD_eq_getElem _ _ hlen]
  simp

/-- The backward fill read at the top row is the first non-missing value
of the column. -/
theorem bfill_cellAt_zero (df : DataFrame) (j : Nat) (hn : 0 < df.rows.length)
    (hj : j < df.columns.length) :
    df.bfill.cellAt 0 j = firstNonNA (colVals df j) := by
  unfold DataFrame.bfill DataFrame.cellAt
  rw [show ((List.range df.rows.length).map (fun i =>
      ((df.rows.getD i (("", []))).1,
       (List.range df.columns.length).map (fun j =>
         firstNonNA ((df.rows.drop i).map (fun row => row.2.getD j Val.na)))))).getD 0
         (("", [])) =
      ((df.rows.getD 0 (("", []))).1,
       (List.range df.columns.length).map (fun j =>
         firstNonNA ((df.rows.drop 0).map (fun row => row.2.getD j Val.na)))) from
    getD_map_range _ _ _ _ hn]
  rw [show ((List.range df.columns.length).map (fun j =>
      firstNonNA ((df.rows.drop 0).map (fun row => row.2.getD j Val.na)))).getD j Val.na =
      firstNonNA ((df.rows.drop 0).map (fun row => row.2.getD j Val.na)) from
    getD_map_range _ _ _ _ hj]
  rw [List.drop_zero]
  rfl

/-- The single row of a merged nonempty DataFrame: it keeps the first row
label, and each cell is the first cell of its column when that is not
missing, and the first non-missing value of the column otherwise. -/
theorem _merge_rows (df : DataFrame) (r : String × List Val)
    (rest : List (String × List Val)) (h : df.rows = r :: rest) :
    (_merge df).rows = [(r.1, (List.range df.columns.length).map (fun j =>
      if _isna (df.cellAt 0 j) then firstNonNA (colVals df j)
      else df.cellAt 0 j))] := by
  have hn : 0 < df.rows.length := by rw [h]; simp
  have hcell : ∀ j ∈ List.range df.columns.length,
      (if _isna (df.cellAt 0 j) then df.bfill.cellAt 0 j else df.cellAt 0 j) =
      (if _isna (df.cellAt 0 j) then firstNonNA (colVals df j)
       else df.cellAt 0 j) := by
    intro j hj
    by_cases hna : _isna (df.cellAt 0 j) = true
    · rw [if_pos hna, if_pos hna, bfill_cellAt_zero df j hn (List.mem_range.mp hj)]
    · rw [if_neg hna, if_neg hna]
  have hrows : (df.maskNA df.bfill).rows.take 1 =
      [((df.rows.getD 0 (("", []))).1,
        (List.range df.columns.length).map (fun j =>
          if _isna (df.cellAt 0 j) then df.bfill.cellAt 0 j
          else df.cellAt 0 j))] := by
    unfold DataFrame.maskNA
    simp only
    rw [show df.rows.length = rest.length + 1 from by rw [h]; rfl,
      List.range_succ_eq_map, List.map_cons]
    rfl
  show (df.maskNA df.bfill).rows.take 1 = _
  rw [hrows, List.map_congr_left hcell, h]
  rfl

/-- A list whose values are all missing has no first non-missing value. -/
theorem firstNonNA_all_na {l : List Val} (h : ∀ v ∈ l, _isna v = true) :
    firstNonNA l = Val.na := by
  unfold firstNonNA
  rw [List.find?_eq_none.mpr (fun x hx => by simp [h x hx])]

/-! Unfolding lemmas for the path and key helpers. -/

/-- Unfolding of nodePathsFrom: empty list. -/
theorem nodePathsFrom_nil (k : Nat) : nodePathsFrom [] k = [] := by
  simp [nodePathsFrom]

/-- Unfolding of nodePathsFrom: one more child. -/
theorem nodePathsFrom_cons (s : Val) (ss : List Val) (k : Nat) :
    nodePathsFrom (s :: ss) k =
      (nodePaths s).map (fun q => k :: q) ++ nodePathsFrom ss (k + 1) := by
  simp [nodePathsFrom]

/-- Unfolding of allKeysFrom: empty list. -/
theorem allKeysFrom_nil : allKeysFrom [] = [] := by
  simp [allKeysFrom]

/-- Unfolding of allKeysFrom: one more subtree. -/
theorem allKeysFrom_cons (s : Val) (ss : List Val) :
    allKeysFrom (s :: ss) = allKeys s ++ allKeysFrom ss := by
  simp [allKeysFrom]

/-- Prepending a child position to a path extends the root index by the
separator and the position. -/
theorem pathLabel_cons (i sep : String) (k : Nat) (q : List Nat) :
    pathLabel i sep (k :: q) = pathLabel (i ++ sep ++ toString k) sep q := rfl

/-- The index of the unmerged frame lists exactly the pre-order node
labels of the annotation tree. -/
theorem fa_index_eq (obj : Val) : ∀ (i sep : String) (t : Option String),
    ( from_annotation obj i false sep t).index =
      (nodePaths obj).map (pathLabel i sep) := by
  induction obj using val_subtree_ind with
  | step obj IH =>
    intro i sep t
    have inner : ∀ (ss : List Val), (∀ s ∈ ss, ∀ (i2 sep2 : String) (t2 : Option String),
        ( from_annotation s i2 false sep2 t2).index =
          (nodePaths s).map (pathLabel i2 sep2)) →
        ∀ k, (faSubs ss k i sep t).flatMap (fun f => f.index) =
          (nodePathsFrom ss k).map (pathLabel i sep) := by
      intro ss hss
      induction ss with
      | nil => intro k; rw [faSubs_nil, nodePathsFrom_nil]; rfl
      | cons s ss ih =>
          intro k
          rw [faSubs_cons, nodePathsFrom_cons]
          simp only [List.flatMap_cons, List.map_append, List.map_map]
          rw [hss s (by simp) (i ++ sep ++ toString k) sep t,
            ih (fun s2 hs2 => hss s2 (by simp [hs2])) (k + 1)]
          rfl
    rw [fa_false_eq, _concat_index, get_subtypes_wrapType]
    simp only [List.flatMap_cons]
    rw [inner (get_subtypes obj) IH 0, nodePaths_eq]
    rfl

/-- The columns of a from_annotation frame are strictly sorted. -/
theorem fa_columns_sorted (obj : Val) (i sep : String) (t : Option String)
    (m : Bool) : (( from_annotation obj i m sep t).columns).Sorted (· < ·) := by
  cases m with
  | false => rw [fa_false_eq]; exact concat_columns_sorted _
  | true =>
      rw [fa_true_eq, _merge_columns, fa_false_eq]
      exact concat_columns_sorted _

/-- The unmerged frame has a first row, labelled by the root index. -/
theorem fa_false_rows_head (obj : Val) (i sep : String) (t : Option String) :
    ∃ cells rest, ( from_annotation obj i false sep t).rows = (i, cells) :: rest := by
  have h := fa_index_eq obj i sep t
  rw [nodePaths_eq] at h
  unfold DataFrame.index at h
  cases hr : ( from_annotation obj i false sep t).rows with
  | nil => rw [hr] at h; simp at h
  | cons r rest =>
      rw [hr] at h
      simp only [List.map_cons, List.map_cons, List.cons.injEq] at h
      have hi : (i : String) = r.1 := by rw [h.1]; rfl
      refine ⟨r.2, rest, ?_⟩
      rw [hi]

/-- Every row of the unmerged frame has one cell per column. -/
theorem fa_false_row_length (obj : Val) (i sep : String) (t : Option String)
    (row : String × List Val)
    (h : row ∈ ( from_annotation obj i false sep t).rows) :
    row.2.length = ( from_annotation obj i false sep t).columns.length := by
  rw [fa_false_eq] at h ⊢
  exact concat_row_length h

/-- The merged frame has exactly one row, labelled by the root index. -/
theorem fa_true_index (obj : Val) (i sep : String) (t : Option String) :
    ( from_annotation obj i true sep t).index = [i] := by
  obtain ⟨cells, rest, hr⟩ := fa_false_rows_head obj i sep t
  rw [fa_true_eq]
  unfold DataFrame.index
  rw [_merge_rows _ _ _ hr]
  rfl

/-- Each cell of the merged row: the root cell when it is not missing,
and the first non-missing value of the column otherwise. -/
theorem fa_true_cellAt (obj : Val) (i sep : String) (t : Option String) (j : Nat) :
    ( from_annotation obj i true sep t).cellAt 0 j =
      (if _isna (( from_annotation obj i false sep t).cellAt 0 j)
       then firstNonNA (colVals ( from_annotation obj i false sep t) j)
       else ( from_annotation obj i false sep t).cellAt 0 j) := by
  obtain ⟨cells, rest, hr⟩ := fa_false_rows_head obj i sep t
  rw [fa_true_eq]
  generalize hF : from_annotation obj i false sep t = F at hr ⊢
  have hrowlen : ∀ row ∈ F.rows, row.2.length = F.columns.length := by
    intro row hrow
    have := fa_false_row_length obj i sep t row (by rw [hF]; exact hrow)
    rw [hF] at this
    exact this
  have hL : (_merge F).cellAt 0 j =
      ((List.range F.columns.length).map (fun j =>
        if _isna (F.cellAt 0 j) then firstNonNA (colVals F j)
        else F.cellAt 0 j)).getD j Val.na := by
    unfold DataFrame.cellAt
    rw [_merge_rows F _ _ hr]
    rfl
  rw [hL]
  by_cases hj : j < F.columns.length
  · rw [getD_map_range _ _ _ _ hj]
  · rw [List.getD_eq_default _ _
      (by simp only [List.length_map, List.length_range]; omega)]
    have hcell0 : F.cellAt 0 j = Val.na := by
      unfold DataFrame.cellAt
      rw [hr]
      have h1 : ((i, cells) :: rest).getD 0 (("", [])) = (i, cells) := rfl
      rw [h1]
      have h2 : cells.length = F.columns.length :=
        hrowlen (i, cells) (by rw [hr]; simp)
      exact List.getD_eq_default _ _ (by show cells.length ≤ j; omega)
    have hcol : firstNonNA (colVals F j) = Val.na := by
      apply firstNonNA_all_na
      intro v hv
      unfold colVals at hv
      obtain ⟨row, hrow, rfl⟩ := List.mem_map.mp hv
      have hlen := hrowlen row hrow
      rw [List.getD_eq_default _ _ (by omega)]
      rfl
    rw [hcell0, hcol]
    simp [_isna]

/-! Key lemmas for the specs dictionaries, towards the column-union
claim. -/

/-- Replacing values does not change the keys of a Spec. -/
theorem spec_replace_keys (s : Spec) (o n : Val) :
    (Spec.replace s o n).map Prod.fst = s.map Prod.fst := by
  unfold Spec.replace
  rw [List.map_map]
  rfl

/-- The keys after setting one dictionary entry. -/
theorem mem_keys_dictSet {a : String} (d : Spec) (k : String) (v : Val) :
    a ∈ (dictSet d k v).map Prod.fst ↔ a ∈ d.map Prod.fst ∨ a = k := by
  unfold dictSet
  by_cases hmem : d.any (fun kv => kv.1 == k) = true
  · rw [if_pos hmem]
    have hkeys : (d.map (fun kv => if kv.1 == k then (k, v) else kv)).map Prod.fst =
        d.map Prod.fst := by
      rw [List.map_map]
      apply List.map_congr_left
      intro kv _
      by_cases h : kv.1 == k
      · have heq : kv.1 = k := by simpa using h
        simp [h, heq]
      · have hne : ¬ kv.1 = k := by simpa using h
        simp [h, hne]
    rw [hkeys]
    have hk : k ∈ d.map Prod.fst := by
      obtain ⟨kv, hkv, hbeq⟩ := List.any_eq_true.mp hmem
      have : kv.1 = k := by simpa using hbeq
      exact this ▸ List.mem_map_of_mem Prod.fst hkv
    constructor
    · exact Or.inl
    · rintro (h | rfl)
      · exact h
      · exact hk
  · rw [if_neg hmem, List.map_append]
    simp

/-- The keys after a dictionary update are the union of both key lists. -/
theorem mem_keys_dictUpdate {a : String} : ∀ (e d : Spec),
    a ∈ (dictUpdate d e).map Prod.fst ↔
      a ∈ d.map Prod.fst ∨ a ∈ e.map Prod.fst := by
  intro e
  induction e with
  | nil => intro d; simp [dictUpdate]
  | cons kv e ih =>
      intro d
      have hstep : dictUpdate d (kv :: e) = dictUpdate (dictSet d kv.1 kv.2) e := rfl
      rw [hstep, ih, mem_keys_dictSet]
      simp only [List.map_cons, List.mem_cons]
      tauto

/-- The keys collected by the specs fold are the keys of the folded
dictionaries plus those of the accumulator. -/
theorem mem_keys_foldSpecs {a : String} (T : Val) : ∀ (L : List Val) (acc : Spec),
    a ∈ (L.foldl (fun acc m =>
        dictUpdate acc (Spec.replace (specEntries m) Val.itself T)) acc).map Prod.fst ↔
      a ∈ acc.map Prod.fst ∨
        a ∈ L.flatMap (fun m => (specEntries m).map Prod.fst) := by
  intro L
  induction L with
  | nil => intro acc; simp
  | cons m L ih =>
      intro acc
      rw [List.foldl_cons, ih, mem_keys_dictUpdate, spec_replace_keys]
      simp only [List.flatMap_cons, List.mem_append]
      tauto

/-- The keys of the specs dictionary of a node are the keys of its Spec
metadata. -/
theorem mem_keys_specsOf {a : String} (obj : Val) :
    a ∈ (specsOf obj).map Prod.fst ↔ a ∈ nodeKeys obj := by
  unfold specsOf nodeKeys
  rw [mem_keys_foldSpecs]
  simp

/-- Wrapping appends the new metadata after the existing metadata. -/
theorem get_metadata_mkAnnotated (t : Val) (ms : List Val) :
    get_metadata (mkAnnotated t ms) = get_metadata t ++ ms := by
  cases t <;> simp [mkAnnotated, get_metadata, has_metadata, get_args]

/-- The node keys of the type-wrapped object: the node keys plus the type
column. -/
theorem nodeKeys_wrapType_some (tc : String) (obj : Val) :
    nodeKeys (wrapType (some tc) obj) = nodeKeys obj ++ [tc] := by
  unfold nodeKeys wrapType
  rw [get_metadata_mkAnnotated, List.filter_append, List.flatMap_append]
  simp [is_spec, specEntries]

/-- Membership in the concatenated key union of a list of subtrees. -/
theorem mem_allKeysFrom {c : String} : ∀ ss : List Val,
    c ∈ allKeysFrom ss ↔ ∃ s ∈ ss, c ∈ allKeys s := by
  intro ss
  induction ss with
  | nil => simp [allKeysFrom_nil]
  | cons s ss ih =>
      rw [allKeysFrom_cons]
      simp [List.mem_append, ih]

/-- The columns of the root frame of a node: the keys of the Spec
metadata at the node, together with the type column when set. -/
theorem mem_specFrame_wrap (obj : Val) (i : String) (t : Option String) (c : String) :
    c ∈ (specFrame i (specsOf (wrapType t obj))).columns ↔
      (c ∈ nodeKeys obj ∨ t = some c) := by
  show c ∈ (specsOf (wrapType t obj)).map Prod.fst ↔ _
  rw [mem_keys_specsOf]
  cases t with
  | none => simp [wrapType]
  | some tc =>
      rw [nodeKeys_wrapType_some]
      simp only [List.mem_append, List.mem_singleton, Option.some.injEq]
      constructor
      · rintro (h | rfl)
        · exact Or.inl h
        · exact Or.inr rfl
      · rintro (h | rfl)
        · exact Or.inl h
        · exact Or.inr rfl

/-- The columns of a from_annotation frame are exactly the union of the
Spec metadata keys over all nodes of the tree, plus the type column. -/
theorem fa_mem_columns (obj : Val) : ∀ (i sep : String) (t : Option String)
    (m : Bool) (c : String),
    c ∈ ( from_annotation obj i m sep t).columns ↔
      (c ∈ allKeys obj ∨ t = some c) := by
  induction obj using val_subtree_ind with
  | step obj IH =>
    intro i sep t m c
    have key : c ∈ ( from_annotation obj i false sep t).columns ↔
        (c ∈ allKeys obj ∨ t = some c) := by
      rw [fa_false_eq, mem_concat_columns, get_subtypes_wrapType]
      have inner : ∀ (ss : List Val), (∀ s ∈ ss, ∀ (i2 sep2 : String)
          (t2 : Option String) (m2 : Bool) (c2 : String),
          c2 ∈ ( from_annotation s i2 m2 sep2 t2).columns ↔
            (c2 ∈ allKeys s ∨ t2 = some c2)) →
          ∀ k, (∃ f ∈ faSubs ss k i sep t, c ∈ f.columns) ↔
            ∃ s ∈ ss, (c ∈ allKeys s ∨ t = some c) := by
        intro ss hss
        induction ss with
        | nil => intro k; simp [faSubs_nil]
        | cons s ss ih =>
            intro k
            rw [faSubs_cons]
            simp only [List.mem_cons, exists_eq_or_imp]
            rw [hss s (by simp) (i ++ sep ++ toString k) sep t false c,
              ih (fun s2 hs2 => hss s2 (by simp [hs2])) (k + 1)]
      simp only [List.mem_cons, exists_eq_or_imp]
      rw [mem_specFrame_wrap, inner (get_subtypes obj) IH 0, allKeys_eq]
      simp only [List.mem_append, mem_allKeysFrom]
      constructor
      · rintro ((h | h) | ⟨s, hs, (h | h)⟩)
        · exact Or.inl (Or.inl h)
        · exact Or.inr h
        · exact Or.inl (Or.inr ⟨s, hs, h⟩)
        · exact Or.inr h
      · rintro ((h | ⟨s, hs, h⟩) | h)
        · exact Or.inl (Or.inl h)
        · exact Or.inr ⟨s, hs, Or.inl h⟩
        · exact Or.inl (Or.inr h)
    cases m with
    | false => exact key
    | true => rw [fa_true_eq, _merge_columns]; exact key

/-! Lemmas towards the from_annotated claim: decimal subindices are
nonempty, so descendant labels are strictly longer than their root
index. -/

/-- The digit accumulator never shrinks. -/
theorem toDigitsCore_length_le (b : Nat) : ∀ (fuel n : Nat) (acc : List Char),
    acc.length ≤ (Nat.toDigitsCore b fuel n acc).length := by
  intro fuel
  induction fuel with
  | zero => intro n acc; simp [Nat.toDigitsCore]
  | succ fuel ih =>
      intro n acc
      by_cases h : n / b = 0
      · simp [Nat.toDigitsCore, h]
      · have step := ih (n / b) ((n % b).digitChar :: acc)
        simp only [Nat.toDigitsCore, h, if_false]
        calc acc.length ≤ ((n % b).digitChar :: acc).length := by simp
          _ ≤ _ := step

/-- The decimal representation of a natural number is nonempty. -/
theorem nat_repr_length_pos (n : Nat) : 0 < (Nat.repr n).length := by
  show 0 < ((Nat.toDigits 10 n).asString).length
  rw [List.length_asString]
  show 0 < (Nat.toDigitsCore 10 (n + 1) n []).length
  by_cases h : n / 10 = 0
  · simp [Nat.toDigitsCore, h]
  · have step := toDigitsCore_length_le 10 n (n / 10) [(n % 10).digitChar]
    simp only [Nat.toDigitsCore, h, if_false]
    calc 0 < [(n % 10).digitChar].length := by simp
      _ ≤ _ := step

/-- toString of a natural number is nonempty. -/
theorem toString_nat_length_pos (k : Nat) : 0 < (toString k).length :=
  nat_repr_length_pos k

/-- A path label is at least as long as its root index. -/
theorem pathLabel_length_le : ∀ (p : List Nat) (i sep : String),
    i.length ≤ (pathLabel i sep p).length := by
  intro p
  induction p with
  | nil => intro i sep; exact le_refl _
  | cons k q ih =>
      intro i sep
      rw [pathLabel_cons]
      calc i.length ≤ (i ++ sep ++ toString k).length := by
            rw [String.length_append, String.length_append]; omega
        _ ≤ _ := ih _ _

/-- Every label of an unmerged frame is at least as long as its root
index. -/
theorem fa_label_length (obj : Val) (i sep : String) (t : Option String)
    {l : String} (h : l ∈ ( from_annotation obj i false sep t).index) :
    i.length ≤ l.length := by
  rw [fa_index_eq] at h
  obtain ⟨p, _, rfl⟩ := List.mem_map.mp h
  exact pathLabel_length_le p i sep

/-- The root index is not a row label of any frame built for the
subannotations: descendant labels are strictly longer. -/
theorem faSubs_root_not_mem (i sep : String) (t : Option String) :
    ∀ (ss : List Val) (k : Nat), ∀ f ∈ faSubs ss k i sep t, i ∉ f.index := by
  intro ss
  induction ss with
  | nil =>
      intro k f hf
      rw [faSubs_nil] at hf
      exact absurd hf (List.not_mem_nil f)
  | cons s ss ih =>
      intro k f hf
      rw [faSubs_cons] at hf
      rcases List.mem_cons.mp hf with rfl | hf
      · intro hmem
        have hlen := fa_label_length s (i ++ sep ++ toString k) sep t hmem
        have h1 : (i ++ sep ++ toString k).length =
            i.length + sep.length + (toString k).length := by
          rw [String.length_append, String.length_append]
        have h2 := toString_nat_length_pos k
        omega
      · exact ih (k + 1) f hf

/-! Positional access lemmas for column labels. -/

/-- The column position of a present label is in range. -/
theorem colIdx_lt {c : String} : ∀ cols : List String,
    c ∈ cols → colIdx cols c < cols.length := by
  intro cols
  induction cols with
  | nil => intro h; exact absurd h (List.not_mem_nil c)
  | cons c0 rest ih =>
      intro h
      unfold colIdx
      by_cases h0 : c0 = c
      · rw [if_pos h0]; simp
      · rw [if_neg h0]
        have hc : c ∈ rest := by
          rcases List.mem_cons.mp h with rfl | h2
          · exact absurd rfl h0
          · exact h2
        have := ih hc
        simp only [List.length_cons]
        omega

/-- Reading a label-indexed map at the position of a present label. -/
theorem getD_map_colIdx {α : Type} (f : String → α) (dflt : α) {c : String} :
    ∀ cols : List String, c ∈ cols →
      (cols.map f).getD (colIdx cols c) dflt = f c := by
  intro cols
  induction cols with
  | nil => intro h; exact absurd h (List.not_mem_nil c)
  | cons c0 rest ih =>
      intro h
      unfold colIdx
      by_cases h0 : c0 = c
      · rw [if_pos h0]; subst h0; rfl
      · rw [if_neg h0]
        have hc : c ∈ rest := by
          rcases List.mem_cons.mp h with rfl | h2
          · exact absurd rfl h0
          · exact h2
        show (rest.map f).getD (colIdx rest c) dflt = f c
        exact ih hc

/-! Label-based access into a concatenation. -/

/-- Relabelling rows by a function of their label commutes with looking a
label up. -/
theorem find?_relabel {r : String} (G : String → List Val) :
    ∀ (L : List (String × List Val)),
      (L.map (fun row => (row.1, G row.1))).find? (fun row => row.1 == r) =
        (L.find? (fun row => row.1 == r)).map (fun row => (row.1, G row.1)) := by
  intro L
  induction L with
  | nil => rfl
  | cons row L ih =>
      show ((row.1, G row.1) :: _).find? _ = _
      by_cases h : row.1 == r
      · simp only [List.find?_cons]
        simp [h]
      · simp only [List.find?_cons]
        simp [h, ih]

/-- A present row label is found. -/
theorem find?_fst_of_mem {r : String} : ∀ (rows : List (String × List Val)),
    r ∈ rows.map Prod.fst →
    ∃ row, rows.find? (fun row => row.1 == r) = some row ∧ row.1 = r := by
  intro rows
  induction rows with
  | nil => intro h; simp at h
  | cons row rows ih =>
      intro h
      by_cases h0 : row.1 == r
      · exact ⟨row, by simp only [List.find?_cons]; simp [h0], by simpa using h0⟩
      · have hr : r ∈ rows.map Prod.fst := by
          rcases List.mem_cons.mp h with h1 | h1
          · exact absurd (by simp [h1]) h0
          · exact h1
        obtain ⟨row2, hfind, hfst⟩ := ih hr
        refine ⟨row2, ?_, hfst⟩
        simp only [List.find?_cons]
        simp [h0]
        exact hfind

/-- Label-based access to a concatenation is the last-wins fold over the
input frames. -/
theorem concat_atLabel (objs : List DataFrame) (r c : String)
    (hr : r ∈ (_concat objs).index) (hc : c ∈ (_concat objs).columns) :
    (_concat objs).atLabel r c =
      objs.foldl
        (fun v f => if r ∈ f.index ∧ c ∈ f.columns then f.atLabel r c else v)
        Val.na := by
  have hrL : r ∈ (objs.flatMap (fun obj => obj.rows)).map Prod.fst := by
    rw [List.map_flatMap]
    rw [_concat_index] at hr
    simpa [DataFrame.index] using hr
  obtain ⟨row0, hfind, hfst⟩ := find?_fst_of_mem _ hrL
  unfold DataFrame.atLabel
  rw [_concat_rows,
    find?_relabel (fun r2 => (_concat objs).columns.map (fun c2 =>
      objs.foldl (fun v f =>
        if r2 ∈ f.index ∧ c2 ∈ f.columns then f.atLabel r2 c2 else v) Val.na)),
    hfind]
  show (if c ∈ (_concat objs).columns then _ else Val.na) = _
  rw [if_pos hc]
  show ((_concat objs).columns.map _).getD (colIdx (_concat objs).columns c) Val.na = _
  rw [getD_map_colIdx _ _ _ hc, hfst]
  rfl

/-- Frames not carrying the row label do not change the fold. -/
theorem foldcell_keep {r c : String} : ∀ (l : List DataFrame) (v : Val),
    (∀ f ∈ l, r ∉ f.index) →
    l.foldl (fun v f => if r ∈ f.index ∧ c ∈ f.columns then f.atLabel r c else v)
      v = v := by
  intro l
  induction l with
  | nil => intro v _; rfl
  | cons f l ih =>
      intro v hl
      rw [List.foldl_cons, if_neg (fun hx => (hl f (by simp)) hx.1)]
      exact ih v (fun g hg => hl g (by simp [hg]))

/-- When exactly one frame carries the row label, the fold reads that
frame. -/
theorem foldcell_unique {r c : String} (pre post : List DataFrame)
    (f0 : DataFrame) (hpre : ∀ f ∈ pre, r ∉ f.index) (hf0 : r ∈ f0.index)
    (hpost : ∀ f ∈ post, r ∉ f.index) :
    (pre ++ f0 :: post).foldl
      (fun v f => if r ∈ f.index ∧ c ∈ f.columns then f.atLabel r c else v)
      Val.na =
      (if c ∈ f0.columns then f0.atLabel r c else Val.na) := by
  rw [List.foldl_append, foldcell_keep pre Val.na hpre, List.foldl_cons]
  by_cases hcc : c ∈ f0.columns
  · rw [if_pos ⟨hf0, hcc⟩, foldcell_keep post _ hpost, if_pos hcc]
  · rw [if_neg (fun hx => hcc hx.2), foldcell_keep post _ hpost, if_neg hcc]

/-! Lookup lemmas for single-key dictionary updates. -/

/-- The ITSELF sentinel equals itself under Python equality. -/
theorem beq_itself_refl : Val.beq Val.itself Val.itself = true := by
  simp [Val.beq]

/-- Overwriting a present key: the lookup finds the new value. -/
theorem find?_mapSet_self {k : String} {v : Val} : ∀ A : Spec,
    A.any (fun kv => kv.1 == k) = true →
    (A.map (fun kv => if kv.1 == k then (k, v) else kv)).find?
      (fun kv => kv.1 == k) = some (k, v) := by
  intro A
  induction A with
  | nil => intro h; simp at h
  | cons kv A ih =>
      intro h
      by_cases hk : kv.1 == k
      · show ((if kv.1 == k then (k, v) else kv) :: _).find? _ = _
        rw [if_pos hk]
        simp only [List.find?_cons]
        simp
      · show ((if kv.1 == k then (k, v) else kv) :: _).find? _ = _
        rw [if_neg hk]
        simp only [List.find?_cons]
        simp only [hk]
        apply ih
        simpa [hk] using h
  -- the simp only [hk] step needs hk as a Bool equation
/-- Setting one key does not disturb the lookup of another key. -/
theorem find?_mapSet_other {k q : String} {v : Val} (hqk : q ≠ k) : ∀ A : Spec,
    (A.map (fun kv => if kv.1 == k then (k, v) else kv)).find?
      (fun kv => kv.1 == q) = A.find? (fun kv => kv.1 == q) := by
  intro A
  induction A with
  | nil => rfl
  | cons kv A ih =>
      by_cases hk : kv.1 == k
      · have hkv : kv.1 = k := by simpa using hk
        show ((if kv.1 == k then (k, v) else kv) :: _).find? _ = _
        rw [if_pos hk]
        simp only [List.find?_cons]
        have h1 : ((k, v).1 == q) = false := by
          simp [Ne.symm hqk]
        have h2 : (kv.1 == q) = false := by
          simp [hkv, Ne.symm hqk]
        simp only [h1, h2]
        exact ih
      · show ((if kv.1 == k then (k, v) else kv) :: _).find? _ = _
        rw [if_neg hk]
        simp only [List.find?_cons]
        by_cases hq : kv.1 == q
        · simp [hq]
        · simp only [hq]
          exact ih

/-- Looking up the key just set returns the new value. -/
theorem dictLookup_dictSet_self (A : Spec) (k : String) (v : Val) :
    dictLookup (dictSet A k v) k = some v := by
  unfold dictLookup dictSet
  by_cases hmem : A.any (fun kv => kv.1 == k) = true
  · rw [if_pos hmem, find?_mapSet_self A hmem]
    rfl
  · rw [if_neg hmem, List.find?_append]
    have hnone : A.find? (fun kv => kv.1 == k) = none := by
      rw [List.find?_eq_none]
      intro kv hkv hbeq
      exact hmem (List.any_eq_true.mpr ⟨kv, hkv, hbeq⟩)
    rw [hnone]
    simp only [List.find?_cons]
    simp

/-- Looking up a different key after a set is the lookup before the
set. -/
theorem dictLookup_dictSet_other (A : Spec) (k q : String) (v : Val)
    (hqk : q ≠ k) : dictLookup (dictSet A k v) q = dictLookup A q := by
  unfold dictLookup dictSet
  by_cases hmem : A.any (fun kv => kv.1 == k) = true
  · rw [if_pos hmem, find?_mapSet_other hqk]
  · rw [if_neg hmem, List.find?_append]
    have h1 : ([(k, v)].find? fun kv => kv.1 == q) = none := by
      have hkq : (k == q) = false := by simp [Ne.symm hqk]
      simp only [List.find?_cons, hkq]
      rfl
    rw [h1]
    cases A.find? (fun kv => kv.1 == q) <;> rfl

/-- dict.update with a single entry is a single set. -/
theorem dictUpdate_singleton (A : Spec) (k : String) (v : Val) :
    dictUpdate A [(k, v)] = dictSet A k v := rfl

/-! The specs dictionary of a data-wrapped annotation. -/

/-- The data key is among the node keys of the data-wrapped annotation. -/
theorem mem_nodeKeys_data (ann : Val) (d : String) (data_ : Val) :
    d ∈ nodeKeys (mkAnnotated ann [Val.spec [(d, data_)]]) := by
  unfold nodeKeys
  rw [get_metadata_mkAnnotated, List.filter_append, List.flatMap_append]
  simp [is_spec, specEntries]

/-- The data key is a key of the node specs dictionary. -/
theorem mem_keys_specsOf_data (ann : Val) (d : String) (data_ : Val)
    (t : Option String) :
    d ∈ (specsOf (wrapType t (mkAnnotated ann [Val.spec [(d, data_)]]))).map
      Prod.fst := by
  rw [mem_keys_specsOf]
  cases t with
  | none => exact mem_nodeKeys_data ann d data_
  | some tc =>
      rw [nodeKeys_wrapType_some]
      exact List.mem_append.mpr (Or.inl (mem_nodeKeys_data ann d data_))

/-- The value of the node specs dictionary at the data key is the
attribute value, provided the type column has a different name and the
attribute value does not equal the ITSELF sentinel. -/
theorem specsOf_data_value (ann : Val) (d : String) (data_ : Val)
    (t : Option String) (htd : t ≠ some d)
    (hbeq : Val.beq data_ Val.itself = false) :
    dictLookup (specsOf (wrapType t (mkAnnotated ann [Val.spec [(d, data_)]]))) d =
      some data_ := by
  cases t with
  | none =>
      show dictLookup (specsOf (mkAnnotated ann [Val.spec [(d, data_)]])) d = _
      unfold specsOf
      rw [get_metadata_mkAnnotated, List.filter_append]
      rw [show List.filter is_spec [Val.spec [(d, data_)]] =
        [Val.spec [(d, data_)]] from rfl]
      rw [List.foldl_append, List.foldl_cons, List.foldl_nil]
      rw [show Spec.replace (specEntries (Val.spec [(d, data_)])) Val.itself
          ( get_annotation (mkAnnotated ann [Val.spec [(d, data_)]]) true) =
        [(d, data_)] from by unfold Spec.replace specEntries; simp [hbeq]]
      rw [dictUpdate_singleton, dictLookup_dictSet_self]
  | some tc =>
      have htd2 : d ≠ tc := fun h => htd (by rw [h])
      show dictLookup (specsOf (mkAnnotated (mkAnnotated ann
        [Val.spec [(d, data_)]]) [Val.spec [(tc, Val.itself)]])) d = _
      unfold specsOf
      rw [get_metadata_mkAnnotated, get_metadata_mkAnnotated,
        List.filter_append, List.filter_append]
      rw [show List.filter is_spec [Val.spec [(d, data_)]] =
        [Val.spec [(d, data_)]] from rfl]
      rw [show List.filter is_spec [Val.spec [(tc, Val.itself)]] =
        [Val.spec [(tc, Val.itself)]] from rfl]
      rw [List.foldl_append, List.foldl_append, List.foldl_cons,
        List.foldl_nil, List.foldl_cons, List.foldl_nil]
      rw [show Spec.replace (specEntries (Val.spec [(d, data_)])) Val.itself
          ( get_annotation (mkAnnotated (mkAnnotated ann [Val.spec [(d, data_)]])
            [Val.spec [(tc, Val.itself)]]) true) =
        [(d, data_)] from by unfold Spec.replace specEntries; simp [hbeq]]
      rw [show Spec.replace (specEntries (Val.spec [(tc, Val.itself)])) Val.itself
          ( get_annotation (mkAnnotated (mkAnnotated ann [Val.spec [(d, data_)]])
            [Val.spec [(tc, Val.itself)]]) true) =
        [(tc, get_annotation (mkAnnotated (mkAnnotated ann
          [Val.spec [(d, data_)]]) [Val.spec [(tc, Val.itself)]]) true)] from by
        unfold Spec.replace specEntries
        simp [beq_itself_refl]]
      rw [dictUpdate_singleton, dictUpdate_singleton,
        dictLookup_dictSet_other _ _ _ _ htd2, dictLookup_dictSet_self]

/-- Reading the value list of a dictionary at the position of a key gives
the value of the first entry with that key. -/
theorem map_snd_getD_colIdx {c : String} : ∀ (s : Spec),
    c ∈ s.map Prod.fst →
    (s.map Prod.snd).getD (colIdx (s.map Prod.fst) c) Val.na =
      (dictLookup s c).getD Val.na := by
  intro s
  induction s with
  | nil => intro h; simp at h
  | cons kv s ih =>
      intro h
      show ((kv.2 :: s.map Prod.snd)).getD
        (colIdx (kv.1 :: s.map Prod.fst) c) Val.na = _
      unfold colIdx
      by_cases h0 : kv.1 = c
      · rw [if_pos h0]
        unfold dictLookup
        rw [List.find?_cons_of_pos _ (by simp [h0])]
        rfl
      · rw [if_neg h0]
        unfold dictLookup
        rw [List.find?_cons_of_neg _ (by simp [h0])]
        have hcm : c ∈ s.map Prod.fst := by
          rcases List.mem_cons.mp h with h1 | h1
          · exact absurd h1.symm h0
          · exact h1
        show (s.map Prod.snd).getD (colIdx (s.map Prod.fst) c) Val.na = _
        exact ih hcm

/-- Label access into the single-row frame of a node: the dictionary
value at the column key. -/
theorem specFrame_atLabel (i c : String) (specs : Spec)
    (hc : c ∈ specs.map Prod.fst) :
    (specFrame i specs).atLabel i c = (dictLookup specs c).getD Val.na := by
  unfold DataFrame.atLabel specFrame
  rw [List.find?_cons_of_pos _ (by simp)]
  show (if c ∈ specs.map Prod.fst then _ else Val.na) = _
  rw [if_pos hc]
  exact map_snd_getD_colIdx specs hc

/-! Root-row access into a from_annotation frame. -/

/-- Label access at the root index of an unmerged frame reads the node
specs dictionary. -/
theorem fa_false_atLabel_root (obj : Val) (i sep : String) (t : Option String)
    (c : String) (hc : c ∈ ( from_annotation obj i false sep t).columns) :
    ( from_annotation obj i false sep t).atLabel i c =
      (if c ∈ (specsOf (wrapType t obj)).map Prod.fst
       then (dictLookup (specsOf (wrapType t obj)) c).getD Val.na
       else Val.na) := by
  have hr : i ∈ ( from_annotation obj i false sep t).index := by
    rw [fa_index_eq, nodePaths_eq]
    exact List.mem_map.mpr ⟨[], by simp, rfl⟩
  rw [fa_false_eq] at hr hc ⊢
  rw [concat_atLabel _ _ _ hr hc]
  have hhead : i ∈ (specFrame i (specsOf (wrapType t obj))).index := by
    simp [specFrame, DataFrame.index]
  refine Eq.trans (foldcell_unique [] _ _ (by intro f hf; simp at hf) hhead
    (faSubs_root_not_mem i sep t _ 0)) ?_
  show (if c ∈ (specsOf (wrapType t obj)).map Prod.fst
      then (specFrame i (specsOf (wrapType t obj))).atLabel i c
      else Val.na) = _
  by_cases hcs : c ∈ (specsOf (wrapType t obj)).map Prod.fst
  · rw [if_pos hcs, if_pos hcs]
    exact specFrame_atLabel i c _ hcs
  · rw [if_neg hcs, if_neg hcs]

/-- Label access at the root index of an unmerged frame is its first-row
cell at the column position. -/
theorem fa_false_atLabel_cellAt (obj : Val) (i sep : String)
    (t : Option String) (c : String)
    (hc : c ∈ ( from_annotation obj i false sep t).columns) :
    ( from_annotation obj i false sep t).atLabel i c =
      ( from_annotation obj i false sep t).cellAt 0
        (colIdx ( from_annotation obj i false sep t).columns c) := by
  obtain ⟨cells, rest, hr⟩ := fa_false_rows_head obj i sep t
  unfold DataFrame.atLabel DataFrame.cellAt
  rw [hr, List.find?_cons_of_pos _ (by simp)]
  show (if c ∈ ( from_annotation obj i false sep t).columns then _ else Val.na) = _
  rw [if_pos hc]
  rfl

/-- Label access at the root index of a merged frame: the root cell when
it is not missing, and the first non-missing value of the column
otherwise. -/
theorem fa_true_atLabel (obj : Val) (i sep : String) (t : Option String)
    (c : String) (hc : c ∈ ( from_annotation obj i false sep t).columns) :
    ( from_annotation obj i true sep t).atLabel i c =
      (if _isna (( from_annotation obj i false sep t).atLabel i c)
       then firstNonNA (colVals ( from_annotation obj i false sep t)
         (colIdx ( from_annotation obj i false sep t).columns c))
       else ( from_annotation obj i false sep t).atLabel i c) := by
  have hAL := fa_false_atLabel_cellAt obj i sep t c hc
  obtain ⟨cells, rest, hr⟩ := fa_false_rows_head obj i sep t
  rw [fa_true_eq]
  generalize hF : from_annotation obj i false sep t = F at hAL hr hc ⊢
  have hL : (_merge F).atLabel i c =
      (if _isna (F.cellAt 0 (colIdx F.columns c))
       then firstNonNA (colVals F (colIdx F.columns c))
       else F.cellAt 0 (colIdx F.columns c)) := by
    unfold DataFrame.atLabel
    rw [_merge_rows F _ _ hr, List.find?_cons_of_pos _ (by simp)]
    show (if c ∈ (_merge F).columns
      then ((List.range F.columns.length).map _).getD
        (colIdx (_merge F).columns c) Val.na
      else Val.na) = _
    rw [_merge_columns, if_pos hc,
      getD_map_range _ _ _ _ (colIdx_lt F.columns hc)]
  rw [hL, ← hAL]

/-! The from_annotated frame. -/

/-- A flatMap of singleton indexes is the map of the labels. -/
theorem flatMap_index_singleton :
    ∀ (l : List (String × Val)) (g : String × Val → DataFrame),
      (∀ p ∈ l, (g p).index = [p.1]) →
      l.flatMap (fun p => (g p).index) = l.map Prod.fst := by
  intro l
  induction l with
  | nil => intro g _; rfl
  | cons p l ih =>
      intro g hg
      rw [List.flatMap_cons, hg p (by simp),
        ih g (fun q hq => hg q (by simp [hq])), List.map_cons]
      rfl

/-- The merged from_annotated frame has one row per annotated attribute,
labelled by the attribute names in declaration order. -/
theorem from_annotated_index (o : PyObj) (d : Option String) (sep : String)
    (t : Option String) :
    ( from_annotated o d true sep t).index = o.annotations.map Prod.fst := by
  unfold from_annotated get_annotations
  rw [_concat_index, List.flatMap_map]
  exact flatMap_index_singleton o.annotations _
    (fun p _ => fa_true_index _ p.1 sep t)

/-- Label access into the merged from_annotated frame reads the merged
frame of the named attribute, when attribute names are distinct. -/
theorem from_annotated_atLabel (o : PyObj) (d sep : String)
    (t : Option String) (hnodup : (o.annotations.map Prod.fst).Nodup)
    (name : String) (ann : Val) (hmem : (name, ann) ∈ o.annotations) :
    ( from_annotated o (some d) true sep t).atLabel name d =
      ( from_annotation (mkAnnotated ann [Val.spec [(d, getattr o name Val.na)]])
        name true sep t).atLabel name d := by
  obtain ⟨pre, post, hsplit⟩ := List.append_of_mem hmem
  have hdcol : d ∈ ( from_annotation (mkAnnotated ann
      [Val.spec [(d, getattr o name Val.na)]]) name false sep t).columns := by
    rw [fa_mem_columns]
    left
    rw [allKeys_eq]
    exact List.mem_append.mpr (Or.inl (mem_nodeKeys_data ann d _))
  have hdcolT : d ∈ ( from_annotation (mkAnnotated ann
      [Val.spec [(d, getattr o name Val.na)]]) name true sep t).columns := by
    rw [fa_true_eq, _merge_columns]
    exact hdcol
  have hrI : name ∈ (_concat (o.annotations.map (fun p =>
      from_annotation (mkAnnotated p.2 [Val.spec [(d, getattr o p.1 Val.na)]])
        p.1 true sep t))).index := by
    rw [show (_concat (o.annotations.map (fun p =>
        from_annotation (mkAnnotated p.2 [Val.spec [(d, getattr o p.1 Val.na)]])
          p.1 true sep t))) = from_annotated o (some d) true sep t from rfl,
      from_annotated_index]
    exact List.mem_map.mpr ⟨(name, ann), hmem, rfl⟩
  have hcC : d ∈ (_concat (o.annotations.map (fun p =>
      from_annotation (mkAnnotated p.2 [Val.spec [(d, getattr o p.1 Val.na)]])
        p.1 true sep t))).columns := by
    rw [mem_concat_columns]
    exact ⟨_, List.mem_map.mpr ⟨(name, ann), hmem, rfl⟩, hdcolT⟩
  show (_concat (o.annotations.map (fun p =>
      from_annotation (mkAnnotated p.2 [Val.spec [(d, getattr o p.1 Val.na)]])
        p.1 true sep t))).atLabel name d = _
  rw [concat_atLabel _ _ _ hrI hcC]
  rw [hsplit, List.map_append, List.map_cons]
  rw [hsplit, List.map_append, List.map_cons] at hnodup
  have hnotin : name ∉ pre.map Prod.fst ++ post.map Prod.fst := by
    have := List.nodup_middle.mp hnodup
    exact (List.nodup_cons.mp this).1
  have hpre : ∀ f ∈ pre.map (fun p =>
      from_annotation (mkAnnotated p.2 [Val.spec [(d, getattr o p.1 Val.na)]])
        p.1 true sep t), name ∉ f.index := by
    intro f hf
    obtain ⟨p, hp, rfl⟩ := List.mem_map.mp hf
    rw [fa_true_index]
    intro hx
    have : p.1 = name := by have h9 := hx; simp at h9; exact h9.symm
    exact hnotin (List.mem_append.mpr (Or.inl
      (this ▸ List.mem_map_of_mem Prod.fst hp)))
  have hpost : ∀ f ∈ post.map (fun p =>
      from_annotation (mkAnnotated p.2 [Val.spec [(d, getattr o p.1 Val.na)]])
        p.1 true sep t), name ∉ f.index := by
    intro f hf
    obtain ⟨p, hp, rfl⟩ := List.mem_map.mp hf
    rw [fa_true_index]
    intro hx
    have : p.1 = name := by have h9 := hx; simp at h9; exact h9.symm
    exact hnotin (List.mem_append.mpr (Or.inr
      (this ▸ List.mem_map_of_mem Prod.fst hp)))
  have hW : name ∈ ( from_annotation (mkAnnotated ann
      [Val.spec [(d, getattr o name Val.na)]]) name true sep t).index := by
    rw [fa_true_index]
    simp
  rw [foldcell_unique _ _ _ hpre hW hpost, if_pos hdcolT]

/-! Claim theorems. -/

/-- C1: for every annotation given to from_annotation with merge=True, the
returned DataFrame has exactly one row, labelled by the index argument,
its columns are those of the merge=False frame, and for each column its
value is the root row value when that is not NA, otherwise the value of
the first row, in the depth-first pre-order row order of the merge=False
frame, that holds a non-NA value for that column (gaps filled from
descendants).  By claim C2, the rows of the merge=False frame are exactly
the nodes of the annotation tree in depth-first pre-order and row 0 is the
root node, so the column scan below realizes the claim statement. -/
theorem claim_C1 (obj : Val) (i sep : String) (t : Option String) :
    ( from_annotation obj i true sep t).index = [i] ∧
    ( from_annotation obj i true sep t).columns =
      ( from_annotation obj i false sep t).columns ∧
    ∀ j : Nat, ( from_annotation obj i true sep t).cellAt 0 j =
      (if _isna (( from_annotation obj i false sep t).cellAt 0 j)
       then firstNonNA (colVals ( from_annotation obj i false sep t) j)
       else ( from_annotation obj i false sep t).cellAt 0 j) :=
  ⟨fa_true_index obj i sep t,
   by rw [fa_true_eq, _merge_columns],
   fun j => fa_true_cellAt obj i sep t j⟩

/-- C2: for every annotation given to from_annotation with merge=False,
the returned DataFrame has exactly one row per node of the annotation
tree, in depth-first pre-order, and the row label of the node reached from
the root by child positions i1, ..., ik is the index argument followed by
i1 through ik, each prefixed by the separator argument. -/
theorem claim_C2 (obj : Val) (i sep : String) (t : Option String) :
    ( from_annotation obj i false sep t).index =
      (nodePaths obj).map (pathLabel i sep) ∧
    ( from_annotation obj i false sep t).rows.length = (nodePaths obj).length := by
  refine ⟨fa_index_eq obj i sep t, ?_⟩
  have h := congrArg List.length (fa_index_eq obj i sep t)
  unfold DataFrame.index at h
  simpa using h

/-- C3: for every annotation given to from_annotation, the columns of the
returned DataFrame equal (as a membership-equal set; they are moreover
sorted and duplicate-free by C10) the union, over all nodes of the
annotation tree, of the keys of the Spec metadata attached at each node,
together with the column named by the type argument when it is not
None. -/
theorem claim_C3 (obj : Val) (i sep : String) (t : Option String) (m : Bool)
    (c : String) :
    c ∈ ( from_annotation obj i m sep t).columns ↔
      (c ∈ allKeys obj ∨ t = some c) :=
  fa_mem_columns obj i sep t m c

/-- C4: the recursive descent of from_annotation over the subannotations
of each node is well-founded (every subannotation is a strictly smaller
type expression), so the walk reaches a leaf on every path and
from_annotation is a total function returning a DataFrame. -/
theorem claim_C4 : WellFounded (fun s obj : Val => s ∈ get_subtypes obj) :=
  Subrelation.wf (fun h => get_subtypes_mem_sizeOf h)
    (InvImage.wf sizeOf (Nat.lt_wfRel).wf)

/-- C5: the claim states that every name the modules import at load time
is defined in the module it is imported from.  On the shipped sources this
is false: spec.py does not define ITSELF or SpecFrame, typing.py does not
define HasAnnotations, get_annotations or get_subannotations, and api.py
does not define from_annotations, so the intra-package imports of api.py
and of the package root do not resolve and importing typespecs raises
ImportError. -/
theorem claim_C5 :
    importsResolved typespecsModules = false ∧
    resolves typespecsModules (("typespecs.spec"), ("ITSELF")) = false ∧
    resolves typespecsModules (("typespecs.typing"), ("get_subannotations")) = false ∧
    resolves typespecsModules (("typespecs.typing"), ("HasAnnotations")) = false ∧
    resolves typespecsModules (("typespecs.api"), ("from_annotations")) = false ∧
    resolves typespecsModules (("typespecs.spec"), ("SpecFrame")) = false := by
  refine ⟨rfl, rfl, rfl, rfl, rfl, rfl⟩

/-- The full content of the from_annotated claim, as a reusable lemma:
row labels are the field names in declaration order, and the data-column
cell of a field holds the attribute value when present, and otherwise the
backfill of the data column of the unmerged field frame. -/
theorem from_annotated_data_column (o : PyObj) (d sep : String)
    (t : Option String) (htd : t ≠ some d)
    (hnodup : (o.annotations.map Prod.fst).Nodup) :
    ( from_annotated o (some d) true sep t).index = o.annotations.map Prod.fst ∧
    ∀ name ann, (name, ann) ∈ o.annotations →
      Val.beq (getattr o name Val.na) Val.itself = false →
      ( from_annotated o (some d) true sep t).atLabel name d =
        (if _isna (getattr o name Val.na)
         then firstNonNA (colVals
           ( from_annotation (mkAnnotated ann
             [Val.spec [(d, getattr o name Val.na)]]) name false sep t)
           (colIdx ( from_annotation (mkAnnotated ann
             [Val.spec [(d, getattr o name Val.na)]]) name false sep t).columns d))
         else getattr o name Val.na) := by
  refine ⟨from_annotated_index o (some d) sep t, ?_⟩
  intro name ann hmem hbeq
  have hdcol : d ∈ ( from_annotation (mkAnnotated ann
      [Val.spec [(d, getattr o name Val.na)]]) name false sep t).columns := by
    rw [fa_mem_columns]
    left
    rw [allKeys_eq]
    exact List.mem_append.mpr (Or.inl (mem_nodeKeys_data ann d _))
  rw [from_annotated_atLabel o d sep t hnodup name ann hmem]
  rw [fa_true_atLabel _ name sep t d hdcol]
  have hval : ( from_annotation (mkAnnotated ann
      [Val.spec [(d, getattr o name Val.na)]]) name false sep t).atLabel name d =
      getattr o name Val.na := by
    rw [fa_false_atLabel_root _ name sep t d hdcol,
      if_pos (mem_keys_specsOf_data ann d _ t),
      specsOf_data_value ann d _ t htd hbeq]
    rfl
  rw [hval]

/-- C6 (amended): for every object with annotations whose attribute names
are distinct, from_annotated with data not None and merge=True returns the
concatenation, in declaration order, of one merged row per (field name,
annotation) pair, each built by from_annotation with the field name as
root index (first conjunct: the row labels are the field names in
declaration order); and, provided the type column has a different name
and the attribute value is not the ITSELF sentinel, the cell of the data
column in the row of a field holds the attribute value when that value is
present (not NA), and otherwise the first non-NA value of the data column
among the rows of the unmerged frame of that field, in other words the
backfill from the descendant nodes of the field annotation, NA when no
descendant carries one.  The original claim stated that the cell is NA
whenever the attribute is absent; the counterexample shows the backfill
makes it non-NA when a descendant Spec carries the data key. -/
theorem claim_C6_amended (o : PyObj) (d sep : String) (t : Option String)
    (htd : t ≠ some d) (hnodup : (o.annotations.map Prod.fst).Nodup) :
    ( from_annotated o (some d) true sep t).index = o.annotations.map Prod.fst ∧
    ∀ name ann, (name, ann) ∈ o.annotations →
      Val.beq (getattr o name Val.na) Val.itself = false →
      ( from_annotated o (some d) true sep t).atLabel name d =
        (if _isna (getattr o name Val.na)
         then firstNonNA (colVals
           ( from_annotation (mkAnnotated ann
             [Val.spec [(d, getattr o name Val.na)]]) name false sep t)
           (colIdx ( from_annotation (mkAnnotated ann
             [Val.spec [(d, getattr o name Val.na)]]) name false sep t).columns d))
         else getattr o name Val.na) :=
  from_annotated_data_column o d sep t htd hnodup

/-- Witness for the amended C6 at a concrete object whose attribute is
present: the data cell holds the attribute value. -/
theorem claim_C6_witness :
    ( from_annotated c6obj (some ("data")) true ("/") (some ("type"))).index =
      c6obj.annotations.map Prod.fst ∧
    ( from_annotated c6obj (some ("data")) true ("/") (some ("type"))).atLabel
      ("a") ("data") =
      (if _isna (getattr c6obj ("a") Val.na)
       then firstNonNA (colVals
         ( from_annotation (mkAnnotated (Val.base ("int"))
           [Val.spec [(("data"), getattr c6obj ("a") Val.na)]]) ("a") false
           ("/") (some ("type")))
         (colIdx ( from_annotation (mkAnnotated (Val.base ("int"))
           [Val.spec [(("data"), getattr c6obj ("a") Val.na)]]) ("a") false
           ("/") (some ("type"))).columns ("data")))
       else getattr c6obj ("a") Val.na) := by
  have h := claim_C6_amended c6obj ("data") ("/") (some ("type"))
    (by decide) (by decide)
  refine ⟨h.1, h.2 ("a") (Val.base ("int")) (List.mem_cons_self _ _) ?_⟩
  show Val.beq (Val.vint 7) Val.itself = false
  simp [Val.beq]

/-- Counterexample to C6 as stated: for the object c6cex, whose only
attribute "a" is absent but whose annotation carries a nested Spec with a
"data" key, the merged data cell holds 99 (backfilled from the descendant
node) and not NA, although the claim says the data column holds NA when
the attribute is absent. -/
theorem claim_C6_counterexample :
    ( from_annotated c6cex (some ("data")) true ("/") (some ("type"))).atLabel
      ("a") ("data") = Val.vint 99 ∧
    ( from_annotated c6cex (some ("data")) true ("/") (some ("type"))).atLabel
      ("a") ("data") ≠ Val.na := by
  have hval : ( from_annotated c6cex (some ("data")) true ("/")
      (some ("type"))).atLabel ("a") ("data") = Val.vint 99 := by
    have e0 : from_annotated c6cex (some ("data")) true ("/") (some ("type")) =
        _concat [ from_annotation
          (mkAnnotated (Val.generic ("list") [Val.annotated (Val.base ("int"))
            [Val.spec [(("data"), Val.vint 99)]]])
            [Val.spec [(("data"), Val.na)]]) ("a") true ("/") (some ("type"))] := rfl
    rw [e0, fa_true_eq, fa_false_eq]
    rw [show get_subtypes (wrapType (some ("type"))
        (mkAnnotated (Val.generic ("list") [Val.annotated (Val.base ("int"))
          [Val.spec [(("data"), Val.vint 99)]]]) [Val.spec [(("data"), Val.na)]])) =
      [Val.annotated (Val.base ("int")) [Val.spec [(("data"), Val.vint 99)]]]
      from rfl]
    rw [faSubs_cons, faSubs_nil, fa_false_eq]
    rw [show get_subtypes (wrapType (some ("type"))
        (Val.annotated (Val.base ("int")) [Val.spec [(("data"), Val.vint 99)]])) =
      ([] : List Val) from rfl]
    rw [faSubs_nil]
    rw [show ("a" ++ "/" ++ toString 0 : String) = ("a/0") from rfl]
    have hdt : ("data" : String) ≤ "type" :=
      le_of_lt (by rw [String.lt_iff_toList_lt]; decide)
    have hdt2 : ([('d'), ('a'), ('t'), ('a')] : List Char) ≤
        [('t'), ('y'), ('p'), ('e')] := by decide
    simp [hdt2, _concat, _merge, specFrame, specsOf, wrapType, mkAnnotated,
      get_metadata, has_metadata, get_args, is_spec, specEntries, Spec.replace,
      Val.beq, get_annotation, strip_annotations, stripList, dictUpdate,
      dictSet, dictLookup, DataFrame.atLabel, DataFrame.index,
      DataFrame.cellAt, DataFrame.bfill, DataFrame.maskNA, colIdx, colVals,
      firstNonNA, _isna, List.insertionSort, List.orderedInsert, List.dedup,
      hdt, List.range_succ, List.range_zero, List.take_succ_cons,
      List.take_zero, Option.map, Function.comp]
  exact ⟨hval, by rw [hval]; simp⟩

/-- C7: from_annotation is deterministic: two calls with equal annotation,
index, merge, separator and type arguments return equal DataFrames; in
this embedding from_annotation is a pure function of its arguments, with
no dependence on external or shared state. -/
theorem claim_C7 (a1 a2 : Val) (i1 i2 : String) (m1 m2 : Bool)
    (s1 s2 : String) (t1 t2 : Option String) (ha : a1 = a2) (hi : i1 = i2)
    (hm : m1 = m2) (hs : s1 = s2) (ht : t1 = t2) :
    from_annotation a1 i1 m1 s1 t1 = from_annotation a2 i2 m2 s2 t2 := by
  rw [ha, hi, hm, hs, ht]

/-- Witness for C7 at a concrete call. -/
theorem claim_C7_witness :
    from_annotation (Val.base ("int")) ("root") true ("/") (some ("type")) =
      from_annotation (Val.base ("int")) ("root") true ("/") (some ("type")) :=
  claim_C7 _ _ _ _ _ _ _ _ _ _ rfl rfl rfl rfl rfl

/-- C8: for every Spec s and values old and new, s.replace(old, new)
returns a new Spec with exactly the keys of s in the same order, in which
every value equal (by Python ==) to old becomes new and every other value
is unchanged.  The embedding is purely functional, so the call builds a
new Spec and leaves s itself unmodified. -/
theorem claim_C8 (s : Spec) (old_value new_value : Val) :
    (Spec.replace s old_value new_value).map Prod.fst = s.map Prod.fst ∧
    ∀ j : Nat, (Spec.replace s old_value new_value)[j]? =
      (s[j]?).map (fun kv =>
        (kv.1, if Val.beq kv.2 old_value then new_value else kv.2)) := by
  constructor
  · unfold Spec.replace
    rw [List.map_map]
    rfl
  · intro j
    unfold Spec.replace
    rw [List.getElem?_map]

/-- C9: for every annotation whose metadata-stripped form is a Literal
type, get_subtypes returns the empty list, so such a node is a leaf and
its merge=False frame has exactly the root row; for every other
annotation, get_subtypes returns the list of type arguments of the
metadata-stripped form. -/
theorem claim_C9 (obj : Val) :
    ((∃ vs, get_annotation obj false = Val.literal vs) →
      get_subtypes obj = [] ∧
      ∀ (i sep : String) (t : Option String),
        ( from_annotation obj i false sep t).index = [i]) ∧
    ((¬ ∃ vs, get_annotation obj false = Val.literal vs) →
      get_subtypes obj = get_args ( get_annotation obj false)) := by
  constructor
  · rintro ⟨vs, hv⟩
    have hlit : is_literal ( get_annotation obj false) = true := by
      rw [hv]; rfl
    have hsub : get_subtypes obj = [] := by simp [get_subtypes, hlit]
    refine ⟨hsub, ?_⟩
    intro i sep t
    rw [fa_index_eq, nodePaths_eq, hsub, nodePathsFrom_nil]
    rfl
  · intro hnv
    have hlit : is_literal ( get_annotation obj false) = false := by
      cases hx : get_annotation obj false
      case literal vs => exact (hnv ⟨vs, hx⟩).elim
      all_goals rfl
    simp [get_subtypes, hlit]

/-- Witness for C9 at a concrete Literal annotation. -/
theorem claim_C9_witness :
    get_subtypes (Val.literal [Val.vint 1]) = [] ∧
    ( from_annotation (Val.literal [Val.vint 1]) ("root") false ("/")
      (some ("type"))).index = [("root")] := by
  have h := (claim_C9 (Val.literal [Val.vint 1])).1 ⟨[Val.vint 1], rfl⟩
  exact ⟨h.1, h.2 ("root") ("/") (some ("type"))⟩

/-- C10: every DataFrame returned by from_annotation has unique column
labels sorted in ascending order, for both merge settings, regardless of
the order in which metadata keys appear in the annotation tree. -/
theorem claim_C10 (obj : Val) (i sep : String) (t : Option String) (m : Bool) :
    (( from_annotation obj i m sep t).columns).Sorted (· < ·) ∧
    (( from_annotation obj i m sep t).columns).Nodup :=
  ⟨fa_columns_sorted obj i sep t m,
   (fa_columns_sorted obj i sep t m).nodup⟩

end Typespecs
